import Mathlib

/-!
Shallow embedding of `src/comet/timer.go` (package `main` of jelel/goim):
a fixed-capacity binary min-heap of `TimerData` entries keyed by deadline
(`Key`), with a back-pointer `index` stored inside each entry, guarded by a
single mutex, plus the background expiry loop `process`.

Modelling conventions:
* `TimerData` values live in an `arena : List TimerData`; a Go pointer
  `*TimerData` is an arena id (`Nat`).  This captures the aliasing in the
  source: `t.timers[i].index = i` mutates the struct that callers also hold.
* Go slice reads/writes with an out-of-range index, nil-pointer
  dereferences, and a `Lock` on an already locked mutex (deadlock) or an
  `Unlock` of an unlocked mutex all yield `none`: the operation produces no
  result.  Fallible code therefore returns `Option`.
* `net.Conn` is abstracted to `conn : Bool` (`true` iff `Value != nil`);
  the only uses in the source are the nil test and `Close()`.
* Go `int` division truncates toward zero, which is `Int.tdiv`.
* The zero value of the unexported field `index` is `0`, as in Go for an
  entry the caller constructs and never pushes.
-/

/-- The three error values of timer.go: `ErrTimerFull`, `ErrTimerEmpty`,
`ErrTimerNoItem`. -/
inductive TErr where
  | full
  | empty
  | noItem
deriving DecidableEq, Repr

/-- `TimerData`: `Key` is the deadline (int64 nanoseconds), `conn` abstracts
`Value net.Conn` (`true` iff non-nil), `index` is the back-pointer slot
field. -/
structure TimerData where
  Key : Int
  conn : Bool
  index : Int
deriving DecidableEq, Repr

/-- The `Timer` struct together with the arena of all `TimerData` structs the
program holds pointers to.  `timers` holds arena ids (`none` = nil pointer),
`cur` and `max` are the Go fields, `locked` models `lock sync.Mutex`. -/
structure Timer where
  cur : Int
  max : Int
  locked : Bool
  timers : List (Option Nat)
  arena : List TimerData
deriving DecidableEq, Repr

/-- Go slice read `xs[i]` with an `int` index: out of range is a panic
(`none`). -/
def geti {α : Type} (xs : List α) (i : Int) : Option α :=
  if 0 ≤ i ∧ i < (xs.length : Int) then xs[i.toNat]? else none

/-- Go slice write `xs[i] = v`: out of range is a panic (`none`). -/
def seti {α : Type} (xs : List α) (i : Int) (v : α) : Option (List α) :=
  if 0 ≤ i ∧ i < (xs.length : Int) then some (xs.set i.toNat v) else none

/-- Read `t.timers[i]` (the pointer stored in slot `i`). -/
def Timer.slotAt (t : Timer) (i : Int) : Option (Option Nat) :=
  geti t.timers i

/-- Read `*t.timers[i]`: slice read followed by pointer dereference. -/
def Timer.entAt (t : Timer) (i : Int) : Option TimerData :=
  match t.slotAt i with
  | none => none
  | some none => none
  | some (some id) => t.arena[id]?

/-- `func (t *Timer) less(i, j int) bool { return t.timers[i].Key < t.timers[j].Key }` -/
def Timer.less (t : Timer) (i j : Int) : Option Bool :=
  match t.entAt i with
  | none => none
  | some a =>
    match t.entAt j with
    | none => none
    | some b => some (decide (a.Key < b.Key))

/-- The statement `t.timers[i].index = i`: dereference the pointer in slot
`i` and overwrite its `index` field. -/
def Timer.setIdx (t : Timer) (i : Int) : Option Timer :=
  match t.slotAt i with
  | none => none
  | some none => none
  | some (some id) =>
    match t.arena[id]? with
    | none => none
    | some e => some { t with arena := t.arena.set id { e with index := i } }

/-- `func (t *Timer) swap(i, j int)`:
`t.timers[i], t.timers[j] = t.timers[j], t.timers[i]` followed by
`t.timers[i].index = i` and `t.timers[j].index = j`. -/
def Timer.swap (t : Timer) (i j : Int) : Option Timer := do
  let a ← t.slotAt i
  let b ← t.slotAt j
  let ts1 ← seti t.timers i b
  let ts2 ← seti ts1 j a
  let t1 : Timer := { t with timers := ts2 }
  let t2 ← t1.setIdx i
  t2.setIdx j

/-- One fuel-indexed unfolding of the `up` loop of
`func (t *Timer) up(j int)`.  `i := (j-1)/2` is Go (truncating) division;
the loop breaks on `i == j || !t.less(j, i)`.  The outer `none` means the
fuel ran out before the loop finished; each iteration strictly decreases
`j.toNat`, so `j.toNat + 1` units of fuel always suffice (proved in the
termination theorem for C10). -/
def upF : Nat → Timer → Int → Option (Option Timer)
  | 0, _, _ => none
  | fuel + 1, t, j =>
    if Int.tdiv (j - 1) 2 = j then some (some t)
    else
      match t.less j (Int.tdiv (j - 1) 2) with
      | none => some none
      | some false => some (some t)
      | some true =>
        match t.swap (Int.tdiv (j - 1) 2) j with
        | none => some none
        | some t2 => upF fuel t2 (Int.tdiv (j - 1) 2)

/-- `func (t *Timer) up(j int)`: the sift-up loop, run with enough fuel. -/
def Timer.up (t : Timer) (j : Int) : Option Timer :=
  (upF (j.toNat + 1) t j).getD none

/-- One fuel-indexed unfolding of the `down` loop of
`func (t *Timer) down(i, n int)`.  The child index `j` is the left child
`j1 = 2*i+1`, replaced by the right child `j2` when
`j2 < n && !t.less(j1, j2)` (Go short-circuit: `less` is only evaluated
when `j2 < n`).  Each iteration strictly decreases `(n - i).toNat`, so
`(n - i).toNat + 1` units of fuel always suffice (proved in the
termination theorem for C10). -/
def downF : Nat → Timer → Int → Int → Option (Option Timer)
  | 0, _, _, _ => none
  | fuel + 1, t, i, n =>
    if 2 * i + 1 ≥ n ∨ 2 * i + 1 < 0 then some (some t)
    else
      match (if 2 * i + 1 + 1 < n then
          (t.less (2 * i + 1) (2 * i + 1 + 1)).map
            (fun b => if b then 2 * i + 1 else 2 * i + 1 + 1)
        else some (2 * i + 1)) with
      | none => some none
      | some j =>
        match t.less j i with
        | none => some none
        | some false => some (some t)
        | some true =>
          match t.swap i j with
          | none => some none
          | some t2 => downF fuel t2 j n

/-- `func (t *Timer) down(i, n int)`: the sift-down loop, run with enough
fuel. -/
def Timer.down (t : Timer) (i n : Int) : Option Timer :=
  (downF ((n - i).toNat + 1) t i n).getD none

/-- `func (t *Timer) pop() (item *TimerData)`: `item = t.timers[t.cur]`,
`item.index = -1`, `t.cur--`.  Returns the arena id of the popped entry. -/
def Timer.pop (t : Timer) : Option (Nat × Timer) :=
  match t.slotAt t.cur with
  | none => none
  | some none => none
  | some (some id) =>
    match t.arena[id]? with
    | none => none
    | some e =>
      some (id, { t with arena := t.arena.set id { e with index := -1 },
                         cur := t.cur - 1 })

/-- `t.lock.Lock()`: a `sync.Mutex` blocks forever (no result) when already
locked. -/
def Timer.lockM (t : Timer) : Option Timer :=
  if t.locked then none else some { t with locked := true }

/-- `t.lock.Unlock()`: unlocking an unlocked `sync.Mutex` is a runtime
fault (no result). -/
def Timer.unlockM (t : Timer) : Option Timer :=
  if t.locked then some { t with locked := false } else none

/-- `func (t *Timer) Push(item *TimerData) error`.  Note the source sifts
`t.up(t.cur - 1)`, the slot *before* the newly filled one. -/
def Timer.Push (t : Timer) (item : Nat) : Option (Option TErr × Timer) := do
  let t ← t.lockM
  if t.cur ≥ t.max then
    let t ← t.unlockM
    pure (some TErr.full, t)
  else
    let t1 : Timer := { t with cur := t.cur + 1 }
    match t1.arena[item]? with
    | none => none
    | some e =>
      let t2 : Timer := { t1 with arena := t1.arena.set item { e with index := t1.cur } }
      match seti t2.timers t2.cur (some item) with
      | none => none
      | some ts => do
        let t3 : Timer := { t2 with timers := ts }
        let t4 ← t3.up (t3.cur - 1)
        let t5 ← t4.unlockM
        pure (none, t5)

/-- `func (t *Timer) Pop() (item *TimerData, err error)`.  The empty branch
returns while still holding the lock, exactly as the source does. -/
def Timer.Pop (t : Timer) : Option (Option Nat × Option TErr × Timer) := do
  let t ← t.lockM
  if t.cur < 0 then
    pure (none, some TErr.empty, t)
  else do
    let t1 ← t.swap 0 t.cur
    let t2 ← t1.down 0 t1.cur
    let (id, t3) ← t2.pop
    let t4 ← t3.unlockM
    pure (some id, none, t4)

/-- `func (t *Timer) Remove(item *TimerData) (nitem *TimerData, err error)`.
The source passes `item.index` to `down` and `up` by re-reading the field
*after* `swap` has already overwritten it (the struct `item` points to was
moved to slot `t.cur`), so the field is re-fetched from the arena before
each call.  The `ErrTimerNoItem` branch returns while holding the lock. -/
def Timer.Remove (t : Timer) (item : Nat) : Option (Option Nat × Option TErr × Timer) := do
  let t ← t.lockM
  match t.arena[item]? with
  | none => none
  | some e =>
    if e.index = -1 then
      pure (none, some TErr.noItem, t)
    else do
      let t1 ←
        if t.cur ≠ e.index then do
          let ta ← t.swap e.index t.cur
          match ta.arena[item]? with
          | none => none
          | some e2 => do
            let tb ← ta.down e2.index ta.cur
            match tb.arena[item]? with
            | none => none
            | some e3 => tb.up e3.index
        else pure t
      let (id, t2) ← t1.pop
      let t3 ← t2.unlockM
      pure (some id, none, t3)

/-- `func (t *Timer) Peek() (item *TimerData, err error)`: no locking at
all; returns the pointer in slot 0 without dereferencing it. -/
def Timer.Peek (t : Timer) : Option (Option Nat × Option TErr × Timer) :=
  if t.cur < 0 then some (none, some TErr.empty, t)
  else
    match geti t.timers 0 with
    | none => none
    | some p => some (p, none, t)

/-- `func NewTimer(num int) *Timer`: `timers = make([]*TimerData, num, num)`
(all nil), `cur = -1`, `max = num - 1`.  The spawned `go t.process()` is
modelled separately (`Timer.procOnce` / `Timer.fireN`). -/
def NewTimer (num : Int) (arena : List TimerData) : Timer :=
  { cur := -1
    max := num - 1
    locked := false
    timers := List.replicate num.toNat none
    arena := arena }

/-- One iteration of the `process` loop body at a fixed `now`
(`time.Now().UnixNano()`): Peek; on error sleep and continue; if the
minimum deadline is still in the future sleep and continue; otherwise Pop,
skip entries with a nil `Value`, and `Close` the connection (modelled as
emitting the fired entry's `Key`). -/
def Timer.procOnce (t : Timer) (now : Int) : Option (Option Int × Timer) := do
  match t.Peek with
  | none => none
  | some (item?, err?, t1) =>
    match err? with
    | some _ => pure (none, t1)
    | none =>
      match item? with
      | none => none
      | some id =>
        match t1.arena[id]? with
        | none => none
        | some e =>
          if e.Key - now > 0 then pure (none, t1)
          else do
            match ← t1.Pop with
            | (_, some _, t2) => pure (none, t2)
            | (none, none, _) => none
            | (some id2, none, t2) =>
              match t2.arena[id2]? with
              | none => none
              | some e2 =>
                if e2.conn then pure (some e2.Key, t2)
                else pure (none, t2)

/-- Run `fuel` iterations of the `process` loop at a fixed `now`, collecting
the `Key`s of the entries whose connection was closed, in firing order. -/
def Timer.fireN (t : Timer) (now : Int) : Nat → Option (List Int × Timer)
  | 0 => some ([], t)
  | fuel + 1 => do
    let (k?, t1) ← t.procOnce now
    let (ks, t2) ← t1.fireN now fuel
    match k? with
    | some k => pure (k :: ks, t2)
    | none => pure (ks, t2)

/-! ## Specification-side definitions -/

/-- Number of currently stored entries: the active region is
`timers[0..cur]`, so the size is `cur + 1`. -/
def sz (t : Timer) : Nat := (t.cur + 1).toNat

/-- The deadline stored in slot `k`, if slot `k` holds a valid pointer. -/
def keyAtOpt (t : Timer) (k : Nat) : Option Int :=
  match t.timers[k]? with
  | some (some id) => (t.arena[id]?).map TimerData.Key
  | _ => none

/-- The deadline stored in slot `k` (default `0` off the valid region). -/
def keyAt (t : Timer) (k : Nat) : Int := (keyAtOpt t k).getD 0

/-- The arena id stored in slot `k`. -/
def idAt (t : Timer) (k : Nat) : Option Nat :=
  match t.timers[k]? with
  | some (some id) => some id
  | _ => none

/-- Slot `k` holds a non-nil pointer to a live arena entry. -/
def okSlotB (t : Timer) (k : Nat) : Bool :=
  match idAt t k with
  | some id => decide (id < t.arena.length)
  | none => false

/-- Every slot below `m` holds a non-nil pointer to a live arena entry. -/
def okTo (t : Timer) (m : Nat) : Prop := ∀ k, k < m → okSlotB t k = true

/-- Basic well-formedness of a `Timer` as established by `NewTimer` and the
operations: `max` mirrors the backing array's length, `cur` stays in
`[-1, max]`, and the active region holds live pointers. -/
def WF (t : Timer) : Prop :=
  t.max = (t.timers.length : Int) - 1 ∧ -1 ≤ t.cur ∧ t.cur ≤ t.max ∧ okTo t (sz t)

/-- The min-heap invariant on slots `[0, m)`: each non-root slot's deadline
is at least its parent's. -/
def heapTo (t : Timer) (m : Nat) : Prop :=
  ∀ k, k < m → 0 < k → keyAt t ((k - 1) / 2) ≤ keyAt t k

/-- Slot `k`'s entry records `k` in its `index` field. -/
def mirrorSlotB (t : Timer) (k : Nat) : Bool :=
  match idAt t k with
  | some id =>
    match t.arena[id]? with
    | some e => decide (e.index = (k : Int))
    | none => false
  | none => false

/-- The back-pointer invariant on slots `[0, m)`. -/
def mirrorTo (t : Timer) (m : Nat) : Prop := ∀ k, k < m → mirrorSlotB t k = true

/-- The deadlines currently stored in slots `[0, m)`, in slot order. -/
def activeKeys (t : Timer) (m : Nat) : List Int := (List.range m).map (keyAt t)

/-- Call `Pop` `n` times, collecting the `Key`s of the returned entries in
order.  Any error or fault stops the run with `none`. -/
def popAll : Timer → Nat → Option (List Int × Timer)
  | t, 0 => some ([], t)
  | t, n + 1 => do
    let (id?, err?, t1) ← t.Pop
    match err? with
    | some _ => none
    | none =>
      match id? with
      | none => none
      | some id =>
        match t1.arena[id]? with
        | none => none
        | some e => do
          let (ks, t2) ← popAll t1 n
          pure (e.Key :: ks, t2)

instance (t : Timer) (m : Nat) : Decidable (okTo t m) := by
  unfold okTo
  infer_instance

instance (t : Timer) : Decidable (WF t) := by
  unfold WF
  infer_instance

instance (t : Timer) (m : Nat) : Decidable (heapTo t m) := by
  unfold heapTo
  infer_instance

instance (t : Timer) (m : Nat) : Decidable (mirrorTo t m) := by
  unfold mirrorTo
  infer_instance

/-- `t'` has the same `cur`, `max`, `locked`, array length, arena length,
and the same deadline stored in every arena cell as `t` (the heap
manipulation only permutes slots and rewrites `index` fields). -/
def SameShape (t t' : Timer) : Prop :=
  t'.cur = t.cur ∧ t'.max = t.max ∧ t'.locked = t.locked ∧
  t'.timers.length = t.timers.length ∧ t'.arena.length = t.arena.length ∧
  ∀ id : Nat, (t'.arena[id]?).map TimerData.Key = (t.arena[id]?).map TimerData.Key

/-- The min-heap property on slots `[0, m)` except possibly for the pairs
whose parent is slot `p` (the hole the sift-down loop is filling). -/
def heapExceptAt (t : Timer) (m p : Nat) : Prop :=
  ∀ k, k < m → 0 < k → (k - 1) / 2 ≠ p → keyAt t ((k - 1) / 2) ≤ keyAt t k

/-- The grandparent condition at the hole `p`: `p`'s parent is below all of
`p`'s children (so swapping a child into `p` cannot break the pair with
`p`'s parent). -/
def gpOk (t : Timer) (m p : Nat) : Prop :=
  ∀ k, k < m → 0 < k → (k - 1) / 2 = p → 0 < p → keyAt t ((p - 1) / 2) ≤ keyAt t k

/-! ## Concrete states used as failing inputs and witnesses -/

/-- Two caller-allocated entries with deadlines 5 and 4 (never inserted, so
their `index` fields hold Go's zero value 0). -/
def arenaC1 : List TimerData := [⟨5, true, 0⟩, ⟨4, true, 0⟩]

/-- Push the key-5 entry and then the key-4 entry into a fresh capacity-3
store. -/
def sC1 : Option Timer := do
  let (_, ta) ← Timer.Push (NewTimer 3 arenaC1) 0
  let (_, tb) ← Timer.Push ta 1
  pure tb

/-- The state the two pushes of `sC1` actually produce. -/
def tC1 : Timer :=
  { cur := 1, max := 2, locked := false, timers := [some 0, some 1, none],
    arena := [⟨5, true, 0⟩, ⟨4, true, 1⟩] }

/-- Entries with deadlines 7 and 3 for the invariant failing input. -/
def arenaC2 : List TimerData := [⟨7, true, 0⟩, ⟨3, true, 0⟩]

/-- Push key 7 then key 3 into a fresh capacity-3 store. -/
def sC2 : Option Timer := do
  let (_, ta) ← Timer.Push (NewTimer 3 arenaC2) 0
  let (_, tb) ← Timer.Push ta 1
  pure tb

/-- The state the two pushes of `sC2` actually produce. -/
def tC2 : Timer :=
  { cur := 1, max := 2, locked := false, timers := [some 0, some 1, none],
    arena := [⟨7, true, 0⟩, ⟨3, true, 1⟩] }

/-- A full capacity-1 store (for the `Full` witness). -/
def tFull : Timer :=
  { cur := 0, max := 0, locked := false, timers := [some 0],
    arena := [⟨1, true, 0⟩] }

/-- An empty capacity-1 store whose arena holds one never-inserted entry
(zero-value `index = 0`). -/
def tC5 : Timer := NewTimer 1 [⟨42, true, 0⟩]

/-- An empty capacity-2 store whose arena holds one already-removed entry
(`index = -1`). -/
def tC7 : Timer := NewTimer 2 [⟨1, true, -1⟩]

/-- A well-formed three-entry heap: keys 1, 2, 3 in slots 0, 1, 2, all
back-pointers correct. -/
def tC6 : Timer :=
  { cur := 2, max := 2, locked := false, timers := [some 0, some 1, some 2],
    arena := [⟨1, true, 0⟩, ⟨2, true, 1⟩, ⟨3, true, 2⟩] }

/-- A store holding the single entry id 0 (key 10) while the caller also
holds the never-inserted entry id 1 (key 99, zero-value `index = 0`). -/
def tC9 : Timer :=
  { cur := 0, max := 0, locked := false, timers := [some 0],
    arena := [⟨10, true, 0⟩, ⟨99, true, 0⟩] }

/-- The state `tC6.Remove 0` actually produces: the key-1 entry is still
stored at slot 0 while the key-3 entry was detached. -/
def tC6r : Timer :=
  { cur := 1, max := 2, locked := false, timers := [some 0, some 1, some 2],
    arena := [⟨1, true, 0⟩, ⟨2, true, 1⟩, ⟨3, true, -1⟩] }

/-- The state `tC6r.Remove 0` actually produces: the second `Remove` of the
key-1 entry also succeeds and detaches the key-2 entry instead. -/
def tC6rr : Timer :=
  { cur := 0, max := 2, locked := false, timers := [some 0, some 1, some 2],
    arena := [⟨1, true, 0⟩, ⟨2, true, -1⟩, ⟨3, true, -1⟩] }

/-- A store holding one entry, with the lock currently held, to show `Peek`
reads `timers[0]` without acquiring the mutex. -/
def tC7b : Timer :=
  { cur := 0, max := 0, locked := true, timers := [some 0],
    arena := [⟨1, true, 0⟩] }

/-! ## Claim theorems -/

/-- C1: refuted by the code.  Pushing deadline 5 and then deadline 4 into a
fresh capacity-3 store leaves the key-5 entry at the root: `Peek` returns
the entry with deadline 5 although an entry with deadline 4 is stored, so
`Peek` does not return the minimum and the pushed entry was not sifted up
(the source calls `t.up(t.cur - 1)` on the slot before the new entry). -/
theorem C1_push_peek_not_min :
    sC1 = some tC1 ∧
    Timer.Peek tC1 = some (some 0, none, tC1) ∧
    (tC1.arena[0]?).map TimerData.Key = some 5 ∧
    keyAt tC1 1 = 4 ∧ sz tC1 = 2 ∧ ¬ heapTo tC1 (sz tC1) := by
  decide

/-- C2: refuted by the code.  After the interleaved sequence consisting of
`Push` key 7 then `Push` key 3 from a fresh store, slot 1's deadline (3) is
below its parent's (7): the min-heap half of the invariant fails (the
back-pointer half still holds here). -/
theorem C2_invariant_fails :
    sC2 = some tC2 ∧ sz tC2 = 2 ∧ ¬ heapTo tC2 (sz tC2) ∧ mirrorTo tC2 (sz tC2) := by
  decide

/-- C4: on a store already at capacity (`cur ≥ max`), `Push` returns the
`Full` error and the final state is exactly the input state: size, backing
array, arena (hence every entry's `index` field) are untouched and the lock
is released. -/
theorem C4_push_full_unchanged (t : Timer) (id : Nat) (hl : t.locked = false)
    (hfull : t.cur ≥ t.max) :
    Timer.Push t id = some (some TErr.full, t) := by
  obtain ⟨cur, mx, locked, timers, arena⟩ := t
  simp only at hl hfull
  subst hl
  simp [Timer.Push, Timer.lockM, Timer.unlockM, hfull]

/-- Witness for C4 on a concrete full store. -/
theorem C4_push_full_unchanged_witness :
    tFull.locked = false ∧ tFull.cur ≥ tFull.max ∧
    Timer.Push tFull 0 = some (some TErr.full, tFull) :=
  ⟨rfl, by decide, C4_push_full_unchanged tFull 0 rfl (by decide)⟩

/-- C5, counterexample: `Remove` does NOT return `NotFound` for a
never-inserted entry.  Such an entry carries Go's zero-value `index = 0`,
so on an empty store `Remove` reaches `t.swap(0, -1)` and faults on an
out-of-range slice access instead of returning an error. -/
theorem C5_remove_never_inserted_faults : Timer.Remove tC5 0 = none := by
  decide

/-- C5 as amended: on an empty store, `Pop` returns `Empty`, `Peek` returns
`Empty`, and `Remove` returns `NotFound` for an entry whose `index` field is
`-1` (already popped/removed); none of them touches `cur`, the backing
array, or the arena — though `Pop` and `Remove` return with the mutex still
held.  Non-membership is detected only via `index = -1`; a never-inserted
entry (zero-value `index = 0`) is not detected. -/
theorem C5_empty_store_errors (t : Timer) (hl : t.locked = false) (he : t.cur < 0) :
    Timer.Pop t = some (none, some TErr.empty, { t with locked := true }) ∧
    Timer.Peek t = some (none, some TErr.empty, t) ∧
    (∀ id e, t.arena[id]? = some e → e.index = -1 →
      Timer.Remove t id = some (none, some TErr.noItem, { t with locked := true })) := by
  obtain ⟨cur, mx, locked, timers, arena⟩ := t
  simp only at hl he
  subst hl
  refine ⟨?_, ?_, ?_⟩
  · simp [Timer.Pop, Timer.lockM, he]
  · simp [Timer.Peek, he]
  · intro id e harena hidx
    simp [Timer.Remove, Timer.lockM, harena, hidx]

/-- Witness for the amended C5 on a concrete empty store. -/
theorem C5_empty_store_errors_witness :
    tC7.locked = false ∧ tC7.cur < 0 ∧
    (Timer.Pop tC7 = some (none, some TErr.empty, { tC7 with locked := true }) ∧
     Timer.Peek tC7 = some (none, some TErr.empty, tC7) ∧
     (∀ id e, tC7.arena[id]? = some e → e.index = -1 →
       Timer.Remove tC7 id = some (none, some TErr.noItem, { tC7 with locked := true }))) :=
  ⟨rfl, by decide, C5_empty_store_errors tC7 rfl (by decide)⟩

/-- C6: refuted by the code.  On the well-formed heap `tC6` (keys 1, 2, 3,
all invariants hold, entry 0 stored at slot 0), `Remove` of entry 0 (key 1)
succeeds but returns entry 2 (key 3): `swap` moves entry 0 to the last slot
and overwrites its `index` with `t.cur` before `down`/`up` re-read that
field, so `up` sifts the to-be-removed entry back into the heap.  A second
`Remove` of entry 0 then also succeeds (no `NotFound`), returning entry 1,
and a later `Pop` returns entry 0 itself. -/
theorem C6_remove_wrong_entry :
    WF tC6 ∧ heapTo tC6 (sz tC6) ∧ mirrorTo tC6 (sz tC6) ∧ idAt tC6 0 = some 0 ∧
    Timer.Remove tC6 0 = some (some 2, none, tC6r) ∧
    Timer.Remove tC6r 0 = some (some 1, none, tC6rr) ∧
    Timer.Pop tC6rr = some (some 0, none,
      { cur := -1, max := 2, locked := false, timers := [some 0, some 1, some 2],
        arena := [⟨1, true, -1⟩, ⟨2, true, -1⟩, ⟨3, true, -1⟩] }) := by
  decide

/-- C7: refuted by the code.  `Pop` on an empty store and `Remove` of a
detached entry both return with the mutex still held (`locked = true` in
the result state), and `Peek` succeeds on a store whose mutex is currently
held — it never acquires the lock at all. -/
theorem C7_lock_discipline_violated :
    (Timer.Pop tC7).map (fun r => (r.1, r.2.1, r.2.2.locked))
      = some (none, some TErr.empty, true) ∧
    (Timer.Remove tC7 0).map (fun r => (r.1, r.2.1, r.2.2.locked))
      = some (none, some TErr.noItem, true) ∧
    Timer.Peek tC7b = some (some 0, none, tC7b) := by
  decide

/-- C8: refuted by the code.  With entries of deadlines 5 and 4 both already
expired (now = 10), the scheduler loop fires 5 before 4 — a strictly
decreasing deadline order — because the heap order is already broken by
`Push` (see C1).  Moreover, on `tC6`, `Remove` of entry 0 (key 1) succeeds,
yet key 1 is fired by the very next scheduler iterations: a successfully
removed entry is fired. -/
theorem C8_fire_order_violated :
    sC1 = some tC1 ∧
    (Timer.fireN tC1 10 2).map Prod.fst = some [5, 4] ∧
    ¬ List.Sorted (· ≤ ·) ([5, 4] : List Int) ∧
    Timer.Remove tC6 0 = some (some 2, none, tC6r) ∧
    (Timer.fireN tC6r 10 2).map Prod.fst = some [1, 2] := by
  decide

/-- C9: confirmed.  Entry 1 (key 99) was never inserted — no occupied slot
holds it — but its zero-value `index` is 0 and `size = 1`, so `Remove` of
entry 1 succeeds and detaches entry 0 (key 10), the actual occupant of
slot 0: a different entry than the one passed in. -/
theorem C9_remove_unverified_slot :
    idAt tC9 0 = some 0 ∧ (tC9.arena[1]?).map TimerData.index = some 0 ∧
    sz tC9 = 1 ∧ (∀ k, k < sz tC9 → idAt tC9 k ≠ some 1) ∧
    Timer.Remove tC9 1 = some (some 0, none,
      { cur := -1, max := 0, locked := false, timers := [some 0],
        arena := [⟨10, true, -1⟩, ⟨99, true, 0⟩] }) := by
  decide

/-! ## Helper lemmas: bounds of successful reads -/

/-- A successful Go slice read implies the index was in range. -/
theorem geti_bounds {α : Type} {xs : List α} {i : Int} {v : α}
    (h : geti xs i = some v) : 0 ≤ i ∧ i < (xs.length : Int) := by
  by_contra hc
  rw [geti, if_neg hc] at h
  exact Option.noConfusion h

/-- A successful dereference `*t.timers[a]` implies `a` was in range. -/
theorem entAt_bounds {t : Timer} {a : Int} {e : TimerData}
    (h : t.entAt a = some e) : 0 ≤ a ∧ a < (t.timers.length : Int) := by
  unfold Timer.entAt at h
  rcases hs : t.slotAt a with _ | p
  · rw [hs] at h
    exact Option.noConfusion h
  · exact geti_bounds hs

/-- A successful `t.less a b` implies both indices were in range. -/
theorem less_bounds {t : Timer} {a b : Int} {v : Bool}
    (h : t.less a b = some v) : 0 ≤ a ∧ 0 ≤ b := by
  unfold Timer.less at h
  rcases ha : t.entAt a with _ | ea
  · rw [ha] at h
    exact Option.noConfusion h
  · rw [ha] at h
    rcases hb : t.entAt b with _ | eb
    · rw [hb] at h
      exact Option.noConfusion h
    · exact ⟨(entAt_bounds ha).1, (entAt_bounds hb).1⟩

/-- The parent index strictly decreases in the `up` loop (for the loop to
continue, `j` must be a valid read, hence nonnegative, and distinct from
its parent, hence positive). -/
theorem up_next_lt {j : Int} (h0 : ¬ Int.tdiv (j - 1) 2 = j) (hj : 0 ≤ j) :
    (Int.tdiv (j - 1) 2).toNat < j.toNat ∧ 0 ≤ Int.tdiv (j - 1) 2 := by
  have hj1 : 1 ≤ j := by
    rcases eq_or_lt_of_le hj with h | h
    · exact absurd (by rw [← h]; decide) h0
    · omega
  have h2 : Int.tdiv (j - 1) 2 = (j - 1) / 2 := Int.tdiv_eq_ediv (by omega) (by omega)
  rw [h2]
  omega

/-- The child index chosen by the `down` loop body. -/
theorem down_selector {t : Timer} {i n j : Int}
    (h : (if 2 * i + 1 + 1 < n then
        (t.less (2 * i + 1) (2 * i + 1 + 1)).map
          (fun b => if b then 2 * i + 1 else 2 * i + 1 + 1)
      else some (2 * i + 1)) = some j) :
    j = 2 * i + 1 ∨ (j = 2 * i + 1 + 1 ∧ 2 * i + 1 + 1 < n) := by
  split at h
  · rcases Option.map_eq_some'.mp h with ⟨b, _, hb⟩
    cases b
    · right
      exact ⟨hb.symm, by assumption⟩
    · left
      simpa using hb.symm
  · left
    exact (Option.some.inj h).symm

/-- `(n - i).toNat` strictly decreases in the `down` loop. -/
theorem down_next_lt {i n j : Int} (h0 : ¬(2 * i + 1 ≥ n ∨ 2 * i + 1 < 0))
    (hj : j = 2 * i + 1 ∨ (j = 2 * i + 1 + 1 ∧ 2 * i + 1 + 1 < n)) :
    (n - j).toNat < (n - i).toNat ∧ 0 ≤ i ∧ i < j ∧ j < n := by
  push_neg at h0
  omega

/-! ## Fuel adequacy for the sift loops -/

/-- Any fuel beyond `j.toNat` gives the same result for the `up` loop. -/
theorem upF_mono : ∀ (f g : Nat) (t : Timer) (j : Int), j.toNat < f → f ≤ g →
    upF f t j = upF g t j := by
  intro f
  induction f with
  | zero => omega
  | succ f ih =>
    intro g t j hj hfg
    rcases g with _ | g
    · omega
    · simp only [upF]
      split
      · rfl
      · split
        · rfl
        · rfl
        · next hless =>
          split
          · rfl
          · next t2 hswap =>
            have hnext := up_next_lt (by assumption) (less_bounds hless).1
            exact ih g t2 (Int.tdiv (j - 1) 2) (by omega) (by omega)

/-- `j.toNat + 1` units of fuel always complete the `up` loop. -/
theorem upF_some : ∀ (m : Nat) (t : Timer) (j : Int), j.toNat ≤ m →
    ∃ r, upF (m + 1) t j = some r := by
  intro m
  induction m with
  | zero =>
    intro t j hj
    simp only [upF]
    split
    · exact ⟨_, rfl⟩
    · split
      · exact ⟨_, rfl⟩
      · exact ⟨_, rfl⟩
      · next hless =>
        have hnext := up_next_lt (by assumption) (less_bounds hless).1
        omega
  | succ m ih =>
    intro t j hj
    simp only [upF]
    split
    · exact ⟨_, rfl⟩
    · split
      · exact ⟨_, rfl⟩
      · exact ⟨_, rfl⟩
      · next hless =>
        split
        · exact ⟨_, rfl⟩
        · next t2 hswap =>
          have hnext := up_next_lt (by assumption) (less_bounds hless).1
          exact ih t2 (Int.tdiv (j - 1) 2) (by omega)

/-- Any sufficient fuel computes exactly `Timer.up`. -/
theorem up_eq_upF {t : Timer} {j : Int} {f : Nat} (hf : j.toNat < f) :
    upF f t j = some (t.up j) := by
  obtain ⟨r, hr⟩ := upF_some j.toNat t j le_rfl
  have hm := upF_mono (j.toNat + 1) f t j (by omega) (by omega)
  rw [← hm, hr, Timer.up, hr]
  rfl

/-- Any fuel beyond `(n - i).toNat` gives the same result for the `down`
loop. -/
theorem downF_mono : ∀ (f g : Nat) (t : Timer) (i n : Int), (n - i).toNat < f → f ≤ g →
    downF f t i n = downF g t i n := by
  intro f
  induction f with
  | zero => omega
  | succ f ih =>
    intro g t i n hi hfg
    rcases g with _ | g
    · omega
    · simp only [downF]
      split
      · rfl
      · split
        · rfl
        · next j hsel =>
          split
          · rfl
          · rfl
          · next hless =>
            split
            · rfl
            · next t2 hswap =>
              have hnext := down_next_lt (by assumption) (down_selector hsel)
              exact ih g t2 j n (by omega) (by omega)

/-- `(n - i).toNat + 1` units of fuel always complete the `down` loop. -/
theorem downF_some : ∀ (m : Nat) (t : Timer) (i n : Int), (n - i).toNat ≤ m →
    ∃ r, downF (m + 1) t i n = some r := by
  intro m
  induction m with
  | zero =>
    intro t i n hi
    simp only [downF]
    split
    · exact ⟨_, rfl⟩
    · split
      · exact ⟨_, rfl⟩
      · next j hsel =>
        split
        · exact ⟨_, rfl⟩
        · exact ⟨_, rfl⟩
        · next hless =>
          have hnext := down_next_lt (by assumption) (down_selector hsel)
          omega
  | succ m ih =>
    intro t i n hi
    simp only [downF]
    split
    · exact ⟨_, rfl⟩
    · split
      · exact ⟨_, rfl⟩
      · next j hsel =>
        split
        · exact ⟨_, rfl⟩
        · exact ⟨_, rfl⟩
        · next hless =>
          split
          · exact ⟨_, rfl⟩
          · next t2 hswap =>
            have hnext := down_next_lt (by assumption) (down_selector hsel)
            exact ih t2 j n (by omega)

/-- Any sufficient fuel computes exactly `Timer.down`. -/
theorem down_eq_downF {t : Timer} {i n : Int} {g : Nat} (hg : (n - i).toNat < g) :
    downF g t i n = some (t.down i n) := by
  obtain ⟨r, hr⟩ := downF_some (n - i).toNat t i n le_rfl
  have hm := downF_mono ((n - i).toNat + 1) g t i n (by omega) (by omega)
  rw [← hm, hr, Timer.down, hr]
  rfl

/-- C10: the sift loops always terminate.  `up (-1)` and `up 0` return at
once without touching the array (Go's truncating division makes the parent
of `j ∈ {-1, 0}` equal to `j` itself), and for every start state the loops
finish within `j.toNat`, respectively `(n - i).toNat`, iterations: any fuel
beyond that bound yields the loop's final result (its index strictly
decreases, respectively strictly increases but stays below `n`). -/
theorem C10_sift_loops_terminate (t : Timer) (j i n : Int) (f g : Nat)
    (hf : j.toNat < f) (hg : (n - i).toNat < g) :
    Timer.up t (-1) = some t ∧ Timer.up t 0 = some t ∧
    upF f t j = some (Timer.up t j) ∧ downF g t i n = some (Timer.down t i n) :=
  ⟨rfl, rfl, up_eq_upF hf, down_eq_downF hg⟩

/-- Witness for C10 at concrete fuel and indices. -/
theorem C10_sift_loops_terminate_witness :
    ((5 : Int).toNat < 6 ∧ ((7 : Int) - 0).toNat < 8) ∧
    (Timer.up tC6 (-1) = some tC6 ∧ Timer.up tC6 0 = some tC6 ∧
     upF 6 tC6 5 = some (Timer.up tC6 5) ∧ downF 8 tC6 0 7 = some (Timer.down tC6 0 7)) :=
  ⟨⟨by decide, by decide⟩, C10_sift_loops_terminate tC6 5 0 7 6 8 (by decide) (by decide)⟩

/-! ## Reading the state through the invariant vocabulary -/

/-- `okSlotB` characterized. -/
theorem okSlotB_iff {t : Timer} {k : Nat} :
    okSlotB t k = true ↔ ∃ id, t.timers[k]? = some (some id) ∧ id < t.arena.length := by
  unfold okSlotB idAt
  rcases h : t.timers[k]? with _ | p
  · simp
  · rcases p with _ | id
    · simp
    · simp

/-- On a valid slot, `entAt`, `keyAt` and `idAt` agree with the stored
entry. -/
theorem entAt_eval {t : Timer} {a : Int} (ha0 : 0 ≤ a) (hok : okSlotB t a.toNat = true) :
    ∃ id e, t.timers[a.toNat]? = some (some id) ∧ t.arena[id]? = some e ∧
      t.entAt a = some e ∧ keyAt t a.toNat = e.Key ∧ idAt t a.toNat = some id := by
  obtain ⟨id, hti, hlen⟩ := okSlotB_iff.mp hok
  obtain ⟨hal, -⟩ := List.getElem?_eq_some_iff.mp hti
  obtain ⟨e, he⟩ : ∃ e, t.arena[id]? = some e := ⟨_, List.getElem?_eq_getElem hlen⟩
  refine ⟨id, e, hti, he, ?_, ?_, ?_⟩
  · unfold Timer.entAt Timer.slotAt geti
    rw [if_pos ⟨ha0, by omega⟩]
    simp only [hti, he]
  · unfold keyAt keyAtOpt
    simp only [hti, he]
    rfl
  · unfold idAt
    simp only [hti]

/-- On valid slots, `less` computes the comparison of the stored keys. -/
theorem less_eval {t : Timer} {a b : Int} (ha0 : 0 ≤ a) (hb0 : 0 ≤ b)
    (ha : okSlotB t a.toNat = true) (hb : okSlotB t b.toNat = true) :
    t.less a b = some (decide (keyAt t a.toNat < keyAt t b.toNat)) := by
  obtain ⟨ia, ea, -, -, hea, hka, -⟩ := entAt_eval ha0 ha
  obtain ⟨ib, eb, -, -, heb, hkb, -⟩ := entAt_eval hb0 hb
  unfold Timer.less
  simp only [hea, heb, hka, hkb]

/-- `keyAtOpt` only depends on the slot's pointer and the arena's keys. -/
theorem keyAtOpt_congr {t t' : Timer} {k m : Nat}
    (ht : t'.timers[k]? = t.timers[m]?)
    (ha : ∀ id : Nat, (t'.arena[id]?).map TimerData.Key = (t.arena[id]?).map TimerData.Key) :
    keyAtOpt t' k = keyAtOpt t m := by
  unfold keyAtOpt
  rw [ht]
  rcases h : t.timers[m]? with _ | p
  · rfl
  · rcases p with _ | id
    · rfl
    · exact ha id

/-- `keyAt` only depends on the slot's pointer and the arena's keys. -/
theorem keyAt_congr {t t' : Timer} {k m : Nat}
    (ht : t'.timers[k]? = t.timers[m]?)
    (ha : ∀ id : Nat, (t'.arena[id]?).map TimerData.Key = (t.arena[id]?).map TimerData.Key) :
    keyAt t' k = keyAt t m := by
  unfold keyAt
  rw [keyAtOpt_congr ht ha]

/-- `okSlotB` only depends on the slot's pointer and the arena's length. -/
theorem okSlotB_congr {t t' : Timer} {k m : Nat}
    (ht : t'.timers[k]? = t.timers[m]?) (hl : t'.arena.length = t.arena.length) :
    okSlotB t' k = okSlotB t m := by
  unfold okSlotB idAt
  rw [ht, hl]

/-- `SameShape` is transitive. -/
theorem SameShape.trans {t1 t2 t3 : Timer} (h12 : SameShape t1 t2) (h23 : SameShape t2 t3) :
    SameShape t1 t3 := by
  obtain ⟨a1, b1, c1, d1, e1, f1⟩ := h12
  obtain ⟨a2, b2, c2, d2, e2, f2⟩ := h23
  exact ⟨a2.trans a1, b2.trans b1, c2.trans c1, d2.trans d1, e2.trans e1,
    fun id => (f2 id).trans (f1 id)⟩

/-- Specification of `swap` on valid slots `i`, `j`: it succeeds, preserves
the shape (sizes, keys in the arena, `cur`, `max`, `locked`), and exchanges
the two slots' pointers, leaving all other slots alone. -/
theorem swap_spec {t : Timer} {i j : Int} (hi0 : 0 ≤ i) (hj0 : 0 ≤ j)
    (hoi : okSlotB t i.toNat = true) (hoj : okSlotB t j.toNat = true) :
    ∃ t', t.swap i j = some t' ∧ SameShape t t' ∧
      t'.timers[i.toNat]? = t.timers[j.toNat]? ∧
      t'.timers[j.toNat]? = t.timers[i.toNat]? ∧
      ∀ k : Nat, k ≠ i.toNat → k ≠ j.toNat → t'.timers[k]? = t.timers[k]? := by
  obtain ⟨pi, hti, hpi⟩ := okSlotB_iff.mp hoi
  obtain ⟨pj, htj, hpj⟩ := okSlotB_iff.mp hoj
  obtain ⟨hilen, -⟩ := List.getElem?_eq_some_iff.mp hti
  obtain ⟨hjlen, -⟩ := List.getElem?_eq_some_iff.mp htj
  obtain ⟨ei, hei⟩ : ∃ e, t.arena[pi]? = some e := ⟨_, List.getElem?_eq_getElem hpi⟩
  obtain ⟨ej, hej⟩ : ∃ e, t.arena[pj]? = some e := ⟨_, List.getElem?_eq_getElem hpj⟩
  have hsi : t.slotAt i = some (some pi) := by
    unfold Timer.slotAt geti
    rw [if_pos ⟨hi0, by omega⟩]
    exact hti
  have hsj : t.slotAt j = some (some pj) := by
    unfold Timer.slotAt geti
    rw [if_pos ⟨hj0, by omega⟩]
    exact htj
  have hset1 : seti t.timers i (some pj) = some (t.timers.set i.toNat (some pj)) := by
    unfold seti
    rw [if_pos ⟨hi0, by omega⟩]
  have hset2 : seti (t.timers.set i.toNat (some pj)) j (some pi)
      = some ((t.timers.set i.toNat (some pj)).set j.toNat (some pi)) := by
    unfold seti
    rw [if_pos ⟨hj0, by simp only [List.length_set]; omega⟩]
  have hpij : i.toNat = j.toNat → pi = pj := by
    intro hij
    rw [hij, htj] at hti
    exact (Option.some.inj (Option.some.inj hti)).symm
  have h2i : ((t.timers.set i.toNat (some pj)).set j.toNat (some pi))[i.toNat]?
      = some (some pj) := by
    by_cases hij : j.toNat = i.toNat
    · rw [hij, List.getElem?_set_self (by simp only [List.length_set]; omega),
        hpij hij.symm]
    · rw [List.getElem?_set_ne hij, List.getElem?_set_self (by omega)]
  have h2j : ((t.timers.set i.toNat (some pj)).set j.toNat (some pi))[j.toNat]?
      = some (some pi) := by
    rw [List.getElem?_set_self (by simp only [List.length_set]; omega)]
  have hsl1 : Timer.slotAt
      { t with timers := (t.timers.set i.toNat (some pj)).set j.toNat (some pi) } i
      = some (some pj) := by
    unfold Timer.slotAt geti
    rw [if_pos]
    · exact h2i
    · refine ⟨hi0, ?_⟩
      show i < (((t.timers.set i.toNat (some pj)).set j.toNat (some pi)).length : Int)
      simp only [List.length_set]
      omega
  obtain ⟨e', he', hekey⟩ :
      ∃ e', (t.arena.set pj { ej with index := i })[pi]? = some e' ∧ e'.Key = ei.Key := by
    by_cases hpp : pj = pi
    · subst hpp
      rw [List.getElem?_set_self hpj]
      rw [hej] at hei
      cases Option.some.inj hei
      exact ⟨_, rfl, rfl⟩
    · rw [List.getElem?_set_ne hpp]
      exact ⟨ei, hei, rfl⟩
  have hsl2 : Timer.slotAt
      { t with timers := (t.timers.set i.toNat (some pj)).set j.toNat (some pi),
               arena := t.arena.set pj { ej with index := i } } j
      = some (some pi) := by
    unfold Timer.slotAt geti
    rw [if_pos]
    · exact h2j
    · refine ⟨hj0, ?_⟩
      show j < (((t.timers.set i.toNat (some pj)).set j.toNat (some pi)).length : Int)
      simp only [List.length_set]
      omega
  refine ⟨{ t with timers := (t.timers.set i.toNat (some pj)).set j.toNat (some pi),
                   arena := (t.arena.set pj { ej with index := i }).set pi
                     { e' with index := j } },
    ?_, ?_, ?_, ?_, ?_⟩
  · unfold Timer.swap
    simp only [hsi, hsj, hset1, hset2, Option.bind_eq_bind, Option.some_bind]
    unfold Timer.setIdx
    rw [hsl1]
    simp only [hej, Option.some_bind]
    rw [hsl2]
    simp only [he']
  · refine ⟨rfl, rfl, rfl, by simp only [List.length_set], by simp only [List.length_set], ?_⟩
    intro id
    show (((t.arena.set pj { ej with index := i }).set pi { e' with index := j })[id]?).map
        TimerData.Key = (t.arena[id]?).map TimerData.Key
    by_cases hidpi : pi = id
    · subst hidpi
      rw [List.getElem?_set_self (by simp only [List.length_set]; omega), hei]
      simp [hekey]
    · rw [List.getElem?_set_ne hidpi]
      by_cases hidpj : pj = id
      · subst hidpj
        rw [List.getElem?_set_self hpj, hej]
        rfl
      · rw [List.getElem?_set_ne hidpj]
  · show ((t.timers.set i.toNat (some pj)).set j.toNat (some pi))[i.toNat]? = _
    rw [h2i, htj]
  · show ((t.timers.set i.toNat (some pj)).set j.toNat (some pi))[j.toNat]? = _
    rw [h2j, hti]
  · intro k hki hkj
    show ((t.timers.set i.toNat (some pj)).set j.toNat (some pi))[k]? = _
    rw [List.getElem?_set_ne (fun h => hkj h.symm), List.getElem?_set_ne (fun h => hki h.symm)]

/-- The loop equation of `down`: one iteration of the source loop. -/
theorem down_unfold (t : Timer) (i n : Int) :
    t.down i n =
      if 2 * i + 1 ≥ n ∨ 2 * i + 1 < 0 then some t
      else
        match (if 2 * i + 1 + 1 < n then
            (t.less (2 * i + 1) (2 * i + 1 + 1)).map
              (fun b => if b then 2 * i + 1 else 2 * i + 1 + 1)
          else some (2 * i + 1)) with
        | none => none
        | some j =>
          match t.less j i with
          | none => none
          | some false => some t
          | some true =>
            match t.swap i j with
            | none => none
            | some t2 => t2.down j n := by
  conv_lhs => rw [Timer.down]
  simp only [downF]
  split
  · rfl
  · split
    · rfl
    · next j hsel =>
      split
      · rfl
      · rfl
      · next hless =>
        split
        · rfl
        · next t2 hswap =>
          have hnext := down_next_lt (by assumption) (down_selector hsel)
          have h1 := down_eq_downF (t := t2) (i := j) (n := n) (g := (n - i).toNat) (by omega)
          rw [h1]
          rfl

/-- Mapping a two-point exchange of values over `range m` permutes the
list. -/
theorem perm_of_swap_keys (f g : Nat → Int) (m a b : Nat) (ha : a < m) (hb : b < m)
    (hab : g a = f b) (hba : g b = f a)
    (hother : ∀ k, k < m → k ≠ a → k ≠ b → g k = f k) :
    ((List.range m).map g).Perm ((List.range m).map f) := by
  have h1 : (List.range m).map g = ((List.range m).map (fun k => Equiv.swap a b k)).map f := by
    rw [List.map_map]
    apply List.map_congr_left
    intro k hk
    rw [List.mem_range] at hk
    show g k = f (Equiv.swap a b k)
    by_cases hka : k = a
    · subst hka
      rw [Equiv.swap_apply_left]
      exact hab
    · by_cases hkb : k = b
      · subst hkb
        rw [Equiv.swap_apply_right]
        exact hba
      · rw [Equiv.swap_apply_of_ne_of_ne hka hkb]
        exact hother k hk hka hkb
  rw [h1]
  apply List.Perm.map
  apply List.perm_of_nodup_nodup_toFinset_eq
  · exact (List.nodup_range m).map (Equiv.injective _)
  · exact List.nodup_range m
  · ext x
    simp only [List.mem_toFinset, List.mem_map, List.mem_range]
    constructor
    · rintro ⟨y, hy, rfl⟩
      rw [Equiv.swap_apply_def]
      split_ifs <;> omega
    · intro hx
      refine ⟨Equiv.swap a b x, ?_, Equiv.swap_apply_self a b x⟩
      rw [Equiv.swap_apply_def]
      split_ifs <;> omega

/-- `SameShape` is reflexive. -/
theorem sameShape_refl (t : Timer) : SameShape t t :=
  ⟨rfl, rfl, rfl, rfl, rfl, fun _ => rfl⟩

/-- Correctness of the sift-down loop: started at a hole `i` whose only
possible heap violations are with its own children (and whose children are
above `i`'s parent), `down` succeeds and restores the full heap property on
`[0, n)`, permuting only the keys of slots `[0, n)` and preserving the
shape. -/
theorem down_spec : ∀ (d : Nat) (t : Timer) (i n : Int),
    (n - i).toNat ≤ d →
    0 ≤ i → i < n → n ≤ (t.timers.length : Int) →
    okTo t n.toNat →
    heapExceptAt t n.toNat i.toNat →
    gpOk t n.toNat i.toNat →
    ∃ t', t.down i n = some t' ∧ SameShape t t' ∧
      heapTo t' n.toNat ∧ okTo t' n.toNat ∧
      (∀ k : Nat, ¬ k < n.toNat → t'.timers[k]? = t.timers[k]?) ∧
      (activeKeys t' n.toNat).Perm (activeKeys t n.toNat) := by
  intro d
  induction d with
  | zero =>
    intro t i n hd hi0 hin hlen hok hx hgp
    exact absurd hin (by omega)
  | succ d ih =>
    intro t i n hd hi0 hin hlen hok hx hgp
    rw [down_unfold]
    by_cases h0 : 2 * i + 1 ≥ n ∨ 2 * i + 1 < 0
    · rw [if_pos h0]
      refine ⟨t, rfl, sameShape_refl t, ?_, hok, fun k _ => rfl, List.Perm.refl _⟩
      intro k hk hk0
      apply hx k hk hk0
      intro hpk
      omega
    · rw [if_neg h0]
      push_neg at h0
      obtain ⟨hj1n, hj1nn⟩ := h0
      have hokj1 : okSlotB t (2 * i + 1).toNat = true := hok _ (by omega)
      -- the selected child j: it exists, is a child of i inside [0, n),
      -- and holds the smaller of the children's keys
      obtain ⟨j, hsel, hjch, hjmin⟩ :
          ∃ j : Int, (if 2 * i + 1 + 1 < n then
              (t.less (2 * i + 1) (2 * i + 1 + 1)).map
                (fun b => if b then 2 * i + 1 else 2 * i + 1 + 1)
            else some (2 * i + 1)) = some j ∧
            (j = 2 * i + 1 ∨ (j = 2 * i + 1 + 1 ∧ 2 * i + 1 + 1 < n)) ∧
            (∀ c : Nat, c < n.toNat → ((c : Int) = 2 * i + 1 ∨ (c : Int) = 2 * i + 1 + 1) →
              keyAt t j.toNat ≤ keyAt t c) := by
        by_cases hj2 : 2 * i + 1 + 1 < n
        · have hokj2 : okSlotB t (2 * i + 1 + 1).toNat = true := hok _ (by omega)
          rw [if_pos hj2, less_eval (by omega) (by omega) hokj1 hokj2]
          by_cases hlt : keyAt t (2 * i + 1).toNat < keyAt t (2 * i + 1 + 1).toNat
          · refine ⟨2 * i + 1, by simp [hlt], Or.inl rfl, ?_⟩
            intro c hc hcch
            rcases hcch with hc1 | hc2
            · have hceq : c = (2 * i + 1).toNat := by omega
              rw [hceq]
            · have hceq : c = (2 * i + 1 + 1).toNat := by omega
              rw [hceq]
              exact le_of_lt hlt
          · refine ⟨2 * i + 1 + 1, by simp [hlt], Or.inr ⟨rfl, hj2⟩, ?_⟩
            intro c hc hcch
            rcases hcch with hc1 | hc2
            · have hceq : c = (2 * i + 1).toNat := by omega
              rw [hceq]
              omega
            · have hceq : c = (2 * i + 1 + 1).toNat := by omega
              rw [hceq]
        · rw [if_neg hj2]
          refine ⟨2 * i + 1, rfl, Or.inl rfl, ?_⟩
          intro c hc hcch
          rcases hcch with hc1 | hc2
          · have hceq : c = (2 * i + 1).toNat := by omega
            rw [hceq]
          · exact absurd hc (by omega)
      have hjn : j < n := by omega
      have hj0 : 0 ≤ j := by omega
      have hji : i < j := by omega
      have hokj : okSlotB t j.toNat = true := hok _ (by omega)
      have hoki : okSlotB t i.toNat = true := hok _ (by omega)
      rw [hsel]
      by_cases hlt : keyAt t j.toNat < keyAt t i.toNat
      · -- the chosen child is smaller: swap and recurse
        have hless : t.less j i = some true := by
          rw [less_eval hj0 hi0 hokj hoki]
          simp [hlt]
        obtain ⟨t2, hsw, hshape, hti2, htj2, hoth2⟩ := swap_spec hi0 hj0 hoki hokj
        simp only [hless, hsw]
        obtain ⟨hcur2, hmax2, hlk2, htl2, hal2, hkey2⟩ := hshape
        have hkey2i : keyAt t2 i.toNat = keyAt t j.toNat := keyAt_congr hti2 hkey2
        have hkey2j : keyAt t2 j.toNat = keyAt t i.toNat := keyAt_congr htj2 hkey2
        have hkey2o : ∀ k : Nat, k ≠ i.toNat → k ≠ j.toNat → keyAt t2 k = keyAt t k :=
          fun k h1 h2 => keyAt_congr (hoth2 k h1 h2) hkey2
        have hparj : (j.toNat - 1) / 2 = i.toNat := by omega
        have hok2 : okTo t2 n.toNat := by
          intro k hk
          by_cases h1 : k = i.toNat
          · subst h1
            rw [okSlotB_congr hti2 hal2]
            exact hokj
          · by_cases h2 : k = j.toNat
            · subst h2
              rw [okSlotB_congr htj2 hal2]
              exact hoki
            · rw [okSlotB_congr (hoth2 k h1 h2) hal2]
              exact hok _ hk
        have hx2 : heapExceptAt t2 n.toNat j.toNat := by
          intro k hk hk0 hne
          by_cases h1 : k = j.toNat
          · rw [h1, hparj, hkey2i, hkey2j]
            exact le_of_lt hlt
          · by_cases h2 : k = i.toNat
            · rw [h2]
              rw [hkey2o ((i.toNat - 1) / 2) (by omega) (by omega), hkey2i]
              exact hgp j.toNat (by omega) (by omega) hparj (by omega)
            · by_cases h3 : (k - 1) / 2 = i.toNat
              · rw [h3, hkey2i, hkey2o k h2 h1]
                exact hjmin k hk (by omega)
              · rw [hkey2o ((k - 1) / 2) h3 (by omega), hkey2o k h2 h1]
                exact hx k hk hk0 h3
        have hgp2 : gpOk t2 n.toNat j.toNat := by
          intro k hk hk0 hpk hj0'
          rw [hparj, hkey2i, hkey2o k (by omega) (by omega)]
          have hxk := hx k hk hk0 (by omega)
          rw [hpk] at hxk
          exact hxk
        obtain ⟨t3, hdn3, hshape3, hheap3, hok3, hoth3, hperm3⟩ :=
          ih t2 j n (by omega) hj0 hjn (by rw [htl2]; exact hlen) hok2 hx2 hgp2
        refine ⟨t3, hdn3,
          SameShape.trans ⟨hcur2, hmax2, hlk2, htl2, hal2, hkey2⟩ hshape3,
          hheap3, hok3, ?_, ?_⟩
        · intro k hk
          rw [hoth3 k hk, hoth2 k (by omega) (by omega)]
        · refine hperm3.trans ?_
          unfold activeKeys
          exact perm_of_swap_keys (keyAt t) (keyAt t2) n.toNat i.toNat j.toNat
            (by omega) (by omega) hkey2i hkey2j (fun k _ h1 h2 => hkey2o k h1 h2)
      · -- heap already locally correct: the loop stops
        have hless : t.less j i = some false := by
          rw [less_eval hj0 hi0 hokj hoki]
          simp [hlt]
        simp only [hless]
        refine ⟨t, rfl, sameShape_refl t, ?_, hok, fun k _ => rfl, List.Perm.refl _⟩
        intro k hk hk0
        by_cases hpk : (k - 1) / 2 = i.toNat
        · rw [hpk]
          have hkc : (k : Int) = 2 * i + 1 ∨ (k : Int) = 2 * i + 1 + 1 := by omega
          calc keyAt t i.toNat ≤ keyAt t j.toNat := by omega
            _ ≤ keyAt t k := hjmin k hk hkc
        · exact hx k hk hk0 hpk

/-- In a heap, the root's deadline is the minimum of the stored region. -/
theorem root_min {t : Timer} {m : Nat} (hh : heapTo t m) :
    ∀ k, k < m → keyAt t 0 ≤ keyAt t k := by
  intro k
  induction k using Nat.strong_induction_on with
  | _ k ih =>
    intro hk
    rcases Nat.eq_zero_or_pos k with h0 | h0
    · rw [h0]
    · exact le_trans (ih ((k - 1) / 2) (by omega) (by omega)) (hh k hk h0)

/-- Correctness of one `Pop` from a well-formed heap: it returns the root
entry — the one holding the minimum deadline — detaches it (`index = -1`),
shrinks the size by one, and leaves a well-formed heap holding the
remaining keys. -/
theorem pop_spec {t : Timer} (hWF : WF t) (hh : heapTo t (sz t)) (hl : t.locked = false)
    (hne : 0 < sz t) :
    ∃ id e t', Timer.Pop t = some (some id, none, t') ∧
      t'.arena[id]? = some e ∧ e.index = -1 ∧ e.Key = keyAt t 0 ∧
      WF t' ∧ heapTo t' (sz t') ∧ t'.locked = false ∧ sz t' = sz t - 1 ∧
      (activeKeys t (sz t)).Perm (keyAt t 0 :: activeKeys t' (sz t')) := by
  obtain ⟨hmax, hcm1, hcm2, hok⟩ := hWF
  have hc0 : 0 ≤ t.cur := by
    unfold sz at hne
    omega
  have hszt : sz t = t.cur.toNat + 1 := by
    unfold sz
    omega
  have hlenc : t.cur < (t.timers.length : Int) := by omega
  -- the root entry
  obtain ⟨id0, ht00, hid0len⟩ := okSlotB_iff.mp (hok 0 (by omega))
  obtain ⟨e0, he0⟩ : ∃ e, t.arena[id0]? = some e := ⟨_, List.getElem?_eq_getElem hid0len⟩
  have hkey0 : keyAt t 0 = e0.Key := by
    unfold keyAt keyAtOpt
    simp only [ht00, he0]
    rfl
  -- step 1: lock
  have hlk : t.lockM = some { t with locked := true } := by
    unfold Timer.lockM
    rw [hl]
    rfl
  -- step 2: swap root and last slot
  obtain ⟨t2, hsw, ⟨hcur2, hmax2, hlk2, htl2, hal2, hkey2⟩, hti2, htj2, hoth2⟩ :=
    swap_spec (t := { t with locked := true }) (i := 0) (j := t.cur)
      le_rfl hc0 (hok 0 (by omega)) (hok t.cur.toNat (by omega))
  have hc2 : t2.cur = t.cur := hcur2
  have htl2' : t2.timers.length = t.timers.length := htl2
  have hal2' : t2.arena.length = t.arena.length := hal2
  have hkey2' : ∀ idq : Nat, (t2.arena[idq]?).map TimerData.Key
      = (t.arena[idq]?).map TimerData.Key := hkey2
  have hti2' : t2.timers[(0 : Nat)]? = t.timers[t.cur.toNat]? := hti2
  have htj2' : t2.timers[t.cur.toNat]? = t.timers[(0 : Nat)]? := htj2
  have hkA : keyAt t2 0 = keyAt t t.cur.toNat := keyAt_congr hti2' hkey2'
  have hkB : keyAt t2 t.cur.toNat = keyAt t 0 := keyAt_congr htj2' hkey2'
  have hkO : ∀ k : Nat, k ≠ 0 → k ≠ t.cur.toNat → keyAt t2 k = keyAt t k :=
    fun k h1 h2 => keyAt_congr (hoth2 k h1 h2) hkey2'
  have hok2 : okTo t2 t.cur.toNat := by
    intro k hk
    by_cases h1 : k = 0
    · subst h1
      rw [okSlotB_congr hti2' hal2']
      exact hok t.cur.toNat (by omega)
    · rw [okSlotB_congr (hoth2 k h1 (by omega)) hal2']
      exact hok k (by omega)
  -- step 3: sift the new root down over [0, cur)
  obtain ⟨tD, hdn, ⟨hcurD, hmaxD, hlkD, htlD, halD, hkeyD⟩, hheapD, hokD, hothD, hpermD⟩ :
      ∃ tD, t2.down 0 t.cur = some tD ∧ SameShape t2 tD ∧
        heapTo tD t.cur.toNat ∧ okTo tD t.cur.toNat ∧
        (∀ k : Nat, ¬ k < t.cur.toNat → tD.timers[k]? = t2.timers[k]?) ∧
        (activeKeys tD t.cur.toNat).Perm (activeKeys t2 t.cur.toNat) := by
    rcases eq_or_lt_of_le hc0 with h | h
    · refine ⟨t2, ?_, sameShape_refl _, ?_, ?_, fun k _ => rfl, List.Perm.refl _⟩
      · rw [down_unfold, if_pos (by omega)]
      · intro k hk hk0
        exact absurd hk (by omega)
      · intro k hk
        exact absurd hk (by omega)
    · apply down_spec t.cur.toNat t2 0 t.cur (by omega) le_rfl h (by omega)
        hok2 ?_ ?_
      · intro k hk hk0 hne'
        rw [hkO ((k - 1) / 2) hne' (by omega), hkO k (by omega) (by omega)]
        exact hh k (by omega) hk0
      · intro k hk hk0 hpk hp0
        exact absurd hp0 (by omega)
  have hcurD' : tD.cur = t.cur := hcurD.trans hc2
  have htlD' : tD.timers.length = t.timers.length := htlD.trans htl2'
  have halD' : tD.arena.length = t.arena.length := halD.trans hal2'
  have hkeyD' : ∀ idq : Nat, (tD.arena[idq]?).map TimerData.Key
      = (t.arena[idq]?).map TimerData.Key := fun idq => (hkeyD idq).trans (hkey2' idq)
  -- the last slot (untouched by down) still holds the old root
  have hslotD : tD.timers[t.cur.toNat]? = some (some id0) := by
    rw [hothD t.cur.toNat (by omega), htj2', ht00]
  obtain ⟨e3, he3, he3key⟩ : ∃ e3, tD.arena[id0]? = some e3 ∧ e3.Key = e0.Key := by
    have := hkeyD' id0
    rw [he0] at this
    obtain ⟨e3, h1, h2⟩ := Option.map_eq_some'.mp this
    exact ⟨e3, h1, h2⟩
  -- step 4: detach the last slot
  have hpopD : tD.pop = some (id0,
      { tD with arena := tD.arena.set id0 { e3 with index := -1 }, cur := tD.cur - 1 }) := by
    unfold Timer.pop
    have hslot : tD.slotAt tD.cur = some (some id0) := by
      unfold Timer.slotAt geti
      rw [if_pos ⟨by omega, by omega⟩]
      rw [hcurD']
      exact hslotD
    rw [hslot]
    simp only [he3]
  -- step 5: unlock
  have hlkD' : tD.locked = true := hlkD.trans hlk2
  have hunl : Timer.unlockM
      { tD with arena := tD.arena.set id0 { e3 with index := -1 }, cur := tD.cur - 1 }
      = some { tD with arena := tD.arena.set id0 { e3 with index := -1 },
                       cur := tD.cur - 1, locked := false } := by
    unfold Timer.unlockM
    have hlkP : ({ tD with arena := tD.arena.set id0 { e3 with index := -1 },
                           cur := tD.cur - 1 } : Timer).locked = true := hlkD'
    rw [hlkP]
    rfl
  -- assemble the run of Pop
  have hPop : Timer.Pop t = some (some id0, none,
      { tD with arena := tD.arena.set id0 { e3 with index := -1 },
                cur := tD.cur - 1, locked := false }) := by
    unfold Timer.Pop
    rw [hlk]
    simp only [Option.bind_eq_bind, Option.some_bind]
    rw [if_neg (by omega : ¬ ({ t with locked := true } : Timer).cur < 0)]
    rw [hsw]
    simp only [Option.some_bind]
    rw [hc2, hdn]
    simp only [Option.some_bind]
    rw [hpopD]
    simp only [Option.some_bind]
    rw [hunl]
    simp only [Option.some_bind]
    rfl
  have hmaxD' : tD.max = t.max := hmaxD.trans hmax2
  set tF : Timer := { tD with arena := tD.arena.set id0 { e3 with index := -1 },
                              cur := tD.cur - 1, locked := false } with htF
  -- keys of the final state agree with tD
  have hkeyF : ∀ idq : Nat, (tF.arena[idq]?).map TimerData.Key
      = (tD.arena[idq]?).map TimerData.Key := by
    intro idq
    show ((tD.arena.set id0 { e3 with index := -1 })[idq]?).map TimerData.Key = _
    by_cases hq : id0 = idq
    · subst hq
      rw [List.getElem?_set_self (by omega), he3]
      rfl
    · rw [List.getElem?_set_ne hq]
  have hkeyFat : ∀ k : Nat, keyAt tF k = keyAt tD k :=
    fun k => keyAt_congr (by rfl) hkeyF
  have hszF : sz tF = t.cur.toNat := by
    unfold sz
    show (tD.cur - 1 + 1).toNat = t.cur.toNat
    omega
  refine ⟨id0, { e3 with index := -1 }, tF, hPop, ?_, rfl, ?_, ?_, ?_, rfl, ?_, ?_⟩
  · show (tD.arena.set id0 { e3 with index := -1 })[id0]? = _
    rw [List.getElem?_set_self (by omega)]
  · show ({ e3 with index := -1 } : TimerData).Key = keyAt t 0
    rw [hkey0]
    exact he3key
  · -- WF tF
    refine ⟨?_, ?_, ?_, ?_⟩
    · show tD.max = ((tD.timers.length : Int) - 1)
      rw [htlD', hmaxD', hmax]
    · show -1 ≤ tD.cur - 1
      omega
    · show tD.cur - 1 ≤ tD.max
      omega
    · intro k hk
      rw [hszF] at hk
      have hgetF : tF.timers[k]? = tD.timers[k]? := rfl
      rw [okSlotB_congr hgetF (by simp [htF, List.length_set])]
      exact hokD k hk
  · -- heapTo
    intro k hk hk0
    rw [hszF] at hk
    rw [hkeyFat, hkeyFat]
    exact hheapD k hk hk0
  · rw [hszF, hszt]
    omega
  · -- permutation of the keys
    rw [hszF, hszt]
    have hAF : activeKeys tF t.cur.toNat = activeKeys tD t.cur.toNat := by
      unfold activeKeys
      exact List.map_congr_left fun k _ => hkeyFat k
    rw [hAF]
    have hp1 : (activeKeys t2 (t.cur.toNat + 1)).Perm (activeKeys t (t.cur.toNat + 1)) := by
      unfold activeKeys
      exact perm_of_swap_keys (keyAt t) (keyAt t2) (t.cur.toNat + 1) 0 t.cur.toNat
        (by omega) (by omega) hkA hkB (fun k _ h1 h2 => hkO k h1 h2)
    have hsplit : activeKeys t2 (t.cur.toNat + 1)
        = activeKeys t2 t.cur.toNat ++ [keyAt t2 t.cur.toNat] := by
      unfold activeKeys
      rw [List.range_succ, List.map_append]
      rfl
    apply hp1.symm.trans
    rw [hsplit, hkB]
    exact (List.perm_append_singleton _ _).trans (hpermD.symm.cons _)

/-- Popping all entries of a well-formed heap yields a nondecreasing
sequence which is a permutation of the stored deadlines. -/
theorem popAll_sorted : ∀ (m : Nat) (t : Timer), WF t → heapTo t (sz t) →
    t.locked = false → sz t = m →
    ∃ ks t', popAll t m = some (ks, t') ∧ List.Sorted (· ≤ ·) ks ∧
      (activeKeys t (sz t)).Perm ks ∧ sz t' = 0 := by
  intro m
  induction m with
  | zero =>
    intro t hWF hh hl hsz
    refine ⟨[], t, rfl, List.sorted_nil, ?_, hsz⟩
    unfold activeKeys
    rw [hsz]
    exact List.Perm.refl _
  | succ m ih =>
    intro t hWF hh hl hsz
    obtain ⟨id, e, t', hpop, he, hidx, hkey, hWF', hh', hl', hsz', hperm⟩ :=
      pop_spec hWF hh hl (by omega)
    obtain ⟨ks, t2, hrec, hsort, hperm2, hsz2⟩ := ih t' hWF' hh' hl' (by omega)
    refine ⟨e.Key :: ks, t2, ?_, ?_, ?_, hsz2⟩
    · simp only [popAll, hpop, Option.bind_eq_bind, Option.some_bind, he, hrec]
      rfl
    · rw [List.sorted_cons]
      refine ⟨?_, hsort⟩
      intro b hb
      have hb1 : b ∈ activeKeys t' (sz t') := hperm2.mem_iff.mpr hb
      have hb2 : b ∈ activeKeys t (sz t) := hperm.mem_iff.mpr (List.mem_cons_of_mem _ hb1)
      unfold activeKeys at hb2
      obtain ⟨k, hkmem, hkeq⟩ := List.mem_map.mp hb2
      rw [hkey, ← hkeq]
      exact root_min hh k (List.mem_range.mp hkmem)
    · rw [hkey]
      exact hperm.trans (hperm2.cons _)

/-- C3: from any state satisfying the min-heap and back-pointer invariants,
a single `Pop` removes and returns the root entry — the minimum stored
deadline — with its `index` set to `-1`, shrinking the size by one and
re-establishing the invariant, and popping all `sz t` entries yields the
stored deadlines in nondecreasing order. -/
theorem C3_pop_yields_sorted (t : Timer) (hWF : WF t) (hh : heapTo t (sz t))
    (hm : mirrorTo t (sz t)) (hl : t.locked = false) :
    (0 < sz t →
      ∃ id e t', Timer.Pop t = some (some id, none, t') ∧
        t'.arena[id]? = some e ∧ e.index = -1 ∧ e.Key = keyAt t 0 ∧
        (∀ k, k < sz t → e.Key ≤ keyAt t k) ∧
        WF t' ∧ heapTo t' (sz t') ∧ sz t' = sz t - 1) ∧
    ∃ ks t', popAll t (sz t) = some (ks, t') ∧ List.Sorted (· ≤ ·) ks ∧
      (activeKeys t (sz t)).Perm ks ∧ sz t' = 0 := by
  constructor
  · intro hne
    obtain ⟨id, e, t', hpop, he, hidx, hkey, hWF', hh', hl', hsz', hperm⟩ :=
      pop_spec hWF hh hl hne
    refine ⟨id, e, t', hpop, he, hidx, hkey, ?_, hWF', hh', hsz'⟩
    intro k hk
    rw [hkey]
    exact root_min hh k hk
  · exact popAll_sorted (sz t) t hWF hh hl rfl

/-- Witness for C3 on the concrete three-entry heap `tC6`. -/
theorem C3_pop_yields_sorted_witness :
    (WF tC6 ∧ heapTo tC6 (sz tC6) ∧ mirrorTo tC6 (sz tC6) ∧ tC6.locked = false) ∧
    ((0 < sz tC6 →
      ∃ id e t', Timer.Pop tC6 = some (some id, none, t') ∧
        t'.arena[id]? = some e ∧ e.index = -1 ∧ e.Key = keyAt tC6 0 ∧
        (∀ k, k < sz tC6 → e.Key ≤ keyAt tC6 k) ∧
        WF t' ∧ heapTo t' (sz t') ∧ sz t' = sz tC6 - 1) ∧
    ∃ ks t', popAll tC6 (sz tC6) = some (ks, t') ∧ List.Sorted (· ≤ ·) ks ∧
      (activeKeys tC6 (sz tC6)).Perm ks ∧ sz t' = 0) :=
  ⟨⟨by decide, by decide, by decide, rfl⟩,
    C3_pop_yields_sorted tC6 (by decide) (by decide) (by decide) rfl⟩
